import Mathlib

/-!
# Verification of the BoggleSolver word-search engine

A shallow embedding of `BoggleSolver.py`.  The board is a flat list of 16
characters (row-major 4x4), words are lists of characters, and the solver is
modelled as a pure function.  Mutation of `self.found_words` is replaced by
returning the list of words recorded in each subtree; the recursion receives
an explicit fuel argument so the definition is structural (the Python
recursion is bounded by the 16-cell visited set, proved below), and a fuel of
17 is shown to be sufficient.  Failures that the Python code could raise
while solving (a `KeyError` on the nested `valid_words` dictionary, which the
claims assert is unreachable on validated input) are modelled with `Except`.
-/

namespace BoggleSolver

/-- The alphabet string used by `_load_dictionary`. -/
def alphabet : List Char := "abcdefghijklmnopqrstuvwxyz".toList

/-- `_get_possible_index_moves` from `BoggleSolver.py`, including the two dead
top/bottom-row conditionals: Python's `index < 4 == 0` chains as
`index < 4 and 4 == 0`, and `index > 11 == 3` as `index > 11 and 11 == 3`. -/
def getPossibleIndexMoves (index : Nat) : List Int :=
  let possible_moves : List Int := [-5, -4, -3, -1, 1, 3, 4, 5]
  let index_moves := possible_moves.filter (fun move =>
    decide (0 ≤ (index : Int) + move) && decide ((index : Int) + move ≤ 15))
  let index_moves :=
    if index % 4 == 0 then
      index_moves.filter (fun move => !(([-5, -1, 3] : List Int).contains move))
    else if index % 4 == 3 then
      index_moves.filter (fun move => !(([-3, 1, 5] : List Int).contains move))
    else index_moves
  let index_moves :=
    if decide (index < 4) && decide ((4 : Nat) = 0) then
      index_moves.filter (fun move => !(([-5, -4, -3] : List Int).contains move))
    else if decide (index > 11) && decide ((11 : Nat) = 3) then
      index_moves.filter (fun move => !(([3, 4, 5] : List Int).contains move))
    else index_moves
  index_moves

/-- `_get_possible_index_moves` with the two dead top/bottom conditionals
removed: only the `[0,15]` bounds check and the left/right column filters. -/
def boundsAndSideMoves (index : Nat) : List Int :=
  let possible_moves : List Int := [-5, -4, -3, -1, 1, 3, 4, 5]
  let index_moves := possible_moves.filter (fun move =>
    decide (0 ≤ (index : Int) + move) && decide ((index : Int) + move ≤ 15))
  if index % 4 == 0 then
    index_moves.filter (fun move => !(([-5, -1, 3] : List Int).contains move))
  else if index % 4 == 3 then
    index_moves.filter (fun move => !(([-3, 1, 5] : List Int).contains move))
  else index_moves

/-- The king-move neighbours of a position on the 4x4 grid: the cells other
than `pos` whose row and column each differ from those of `pos` by at most 1,
with no wraparound. -/
def kingNeighbors (pos : Nat) : List Nat :=
  (List.range 16).filter (fun q =>
    decide (q ≠ pos) &&
    decide ((((q : Int) / 4) - ((pos : Int) / 4)).natAbs ≤ 1) &&
    decide ((((q : Int) % 4) - ((pos : Int) % 4)).natAbs ≤ 1))

/-- The length filter of `_load_dictionary`: keep raw words with
`len(word) > 2 and len(word) < 18`. -/
def dictWords (ws : List (List Char)) : List (List Char) :=
  ws.filter (fun word => decide (word.length > 2) && decide (word.length < 18))

/-- `missing_letters` of `_load_dictionary`: alphabet letters not on the
board, with `'u'` removed again when `'q'` is not missing but `'u'` is. -/
def missingLetters (board : List Char) : List Char :=
  let missing_letters := alphabet.filter (fun letter => !(board.contains letter))
  if !(missing_letters.contains 'q') && missing_letters.contains 'u' then
    missing_letters.erase 'u'
  else missing_letters

/-- `present_letters` of `_load_dictionary`: alphabet letters not missing. -/
def presentLetters (board : List Char) : List Char :=
  alphabet.filter (fun letter => !((missingLetters board).contains letter))

/-- `unsorted_valid_words` of `_load_dictionary`: the length-filtered words
that contain no missing letter (the Python loop populates `remove_words` with
exactly the length-filtered words containing some missing letter). -/
def unsortedValidWords (ws : List (List Char)) (board : List Char) : List (List Char) :=
  (dictWords ws).filter (fun word =>
    !((missingLetters board).any (fun letter => word.contains letter)))

/-- The nested dictionary `self.valid_words`: looking up `valid_words[c1][c2]`
succeeds exactly when both characters are keys (present letters), and then
returns the bucket of surviving words whose first two letters are `c1, c2`
(the order of `append` during the build is the order of `unsorted_valid_words`,
which `filter` preserves).  `none` models a Python `KeyError`. -/
def validWordsBucket (ws : List (List Char)) (board : List Char) (c1 c2 : Char) :
    Option (List (List Char)) :=
  if (presentLetters board).contains c1 && (presentLetters board).contains c2 then
    some ((unsortedValidWords ws board).filter (fun word =>
      word.getD 0 ' ' == c1 && word.getD 1 ' ' == c2))
  else none

/-- The build loop `self.valid_words[word[0]][word[1]].append(word)` succeeds
without a `KeyError` exactly when every surviving word has its first two
letters among the present letters. -/
def buildOk (ws : List (List Char)) (board : List Char) : Bool :=
  (unsortedValidWords ws board).all (fun word =>
    (presentLetters board).contains (word.getD 0 ' ') &&
    (presentLetters board).contains (word.getD 1 ' '))

/-- The `cur_word` accumulation loop of `_find_words`: for each position of
the path append the board letter, and an extra `'u'` after a `'q'`. -/
def buildCurWord (board : List Char) (curPath : List Nat) : List Char :=
  curPath.foldl (fun cur_word pos =>
    if board.getD pos ' ' == 'q' then cur_word ++ [board.getD pos ' ', 'u']
    else cur_word ++ [board.getD pos ' ']) []

/-- The characters one visited cell contributes to `cur_word`. -/
def cellChars (board : List Char) (pos : Nat) : List Char :=
  if board.getD pos ' ' == 'q' then ['q', 'u'] else [board.getD pos ' ']

/-- Failures of the modelled solve: `keyError` models a Python `KeyError` on
the nested `valid_words` dictionary, `outOfFuel` marks exhausted recursion
fuel (shown unreachable with fuel 17). -/
inductive FindErr where
  | keyError : FindErr
  | outOfFuel : FindErr
deriving DecidableEq

/-- Run a fallible word-collecting action over a list in order, concatenating
the recorded words; the first failure aborts (a Python exception unwinds the
whole solve).  Used for the loop over `available_moves` in `_find_words` and
the loop over the 16 start indices in `_solve_board`. -/
def runSeq {α : Type} (f : α → Except FindErr (List (List Char))) :
    List α → Except FindErr (List (List Char))
  | [] => .ok []
  | a :: rest =>
    match f a with
    | .error e => .error e
    | .ok r =>
      match runSeq f rest with
      | .error e => .error e
      | .ok r2 => .ok (r ++ r2)

/-- `_find_words` of `BoggleSolver.py`.  `table` is `self.possible_index_moves`,
`vw` is the nested `self.valid_words` dictionary (with `none` for a missing
key), and the returned list collects the words the call adds to
`self.found_words`.  The first argument of the recursion is fuel; the Python
function recurses only into unvisited cells, so fuel 17 suffices. -/
def findWords (table : Nat → List Int)
    (vw : Char → Char → Option (List (List Char))) (board : List Char) :
    Nat → Nat → List Bool → List Nat → Except FindErr (List (List Char))
  | 0, _, _, _ => .error .outOfFuel
  | fuel + 1, index, used_letter_arg, cur_path_arg =>
    let used_letter := used_letter_arg.set index true
    let cur_path := cur_path_arg ++ [index]
    let available_moves := (table index).filter (fun move =>
      !(used_letter.getD ((index : Int) + move).toNat true))
    if cur_path.length == 1 then
      -- all individual letters can start words; nothing is recorded here
      if available_moves.isEmpty then .ok []
      else
        runSeq (fun move =>
          findWords table vw board fuel ((index : Int) + move).toNat used_letter cur_path)
          available_moves
    else
      let cur_word := buildCurWord board cur_path
      match vw (cur_word.getD 0 ' ') (cur_word.getD 1 ' ') with
      | none => .error .keyError
      | some bucket =>
        let is_word_start := bucket.any (fun word => cur_word.isPrefixOf word)
        let found :=
          if decide (cur_word.length > 2) && bucket.contains cur_word then [cur_word]
          else []
        if is_word_start && !available_moves.isEmpty then
          match
            runSeq (fun move =>
              findWords table vw board fuel ((index : Int) + move).toNat used_letter cur_path)
              available_moves
          with
          | .error e => .error e
          | .ok rs => .ok (found ++ rs)
        else .ok found

/-- Lexicographic strict order on words, `'a' < 'b' < ... < 'z'`. -/
def lexLt : List Char → List Char → Bool
  | [], [] => false
  | [], _ :: _ => true
  | _ :: _, [] => false
  | a :: as, b :: bs => if a < b then true else if a = b then lexLt as bs else false

/-- Lexicographic order on words (the order Python's `sorted` uses on
lowercase strings). -/
def lexLe : List Char → List Char → Bool
  | [], _ => true
  | _ :: _, [] => false
  | a :: as, b :: bs => if a < b then true else if a = b then lexLe as bs else false

/-- Insert a word into a lexicographically sorted list of words. -/
def insertSorted (w : List Char) : List (List Char) → List (List Char)
  | [] => [w]
  | x :: xs => if lexLe w x then w :: x :: xs else x :: insertSorted w xs

/-- Sort a list of words lexicographically (models Python's `sorted`; on a
duplicate-free list the sorted sequence is unique, so the algorithm used by
`sorted` is irrelevant). -/
def sortWords : List (List Char) → List (List Char)
  | [] => []
  | x :: xs => insertSorted x (sortWords xs)

/-- `_solve_board` of `BoggleSolver.py`, parameterised by the adjacency table:
run `_find_words` from each of the 16 start indices with a fresh all-`False`
`used_letter` and an empty path, then sort the set of found words.  The
dictionary build (`_load_dictionary`) precedes it and raises a `KeyError`
when some surviving word has a first or second letter that is not a key of
the nested dictionary. -/
def solveWith (table : Nat → List Int) (ws : List (List Char)) (board : List Char) :
    Except FindErr (List (List Char)) :=
  if buildOk ws board then
    match
      runSeq (fun i =>
        findWords table (validWordsBucket ws board) board 17 i (List.replicate 16 false) [])
        (List.range 16)
    with
    | .error e => .error e
    | .ok collected => .ok (sortWords collected.dedup)
  else .error .keyError

/-- The full solve with the adjacency table `_build_possible_index_moves`
stores for indices 0..15. -/
def solveBoard (ws : List (List Char)) (board : List Char) :
    Except FindErr (List (List Char)) :=
  solveWith getPossibleIndexMoves ws board

/-- `_build_possible_index_moves`: starting from the current state of the
class-level dict `possible_index_moves`, overwrite the entries for indices
0..15 (the Python loop rebuilds every entry unconditionally). -/
def buildPossibleIndexMoves (cache : Nat → Option (List Int)) : Nat → Option (List Int) :=
  (List.range 16).foldl
    (fun c i => fun j => if j == i then some (getPossibleIndexMoves i) else c j) cache

/-- Read the class-level dict as a total table (out-of-range lookups never
happen during a solve, which is part of what the congruence theorem shows). -/
def tableOfCache (cache : Nat → Option (List Int)) : Nat → List Int :=
  fun i => (cache i).getD []

/-- A run of the engine in a process whose class-level
`possible_index_moves` dict currently holds `cache`: the constructor rebuilds
the table and then solves. -/
def solveBoardFrom (cache : Nat → Option (List Int)) (ws : List (List Char))
    (board : List Char) : Except FindErr (List (List Char)) :=
  solveWith (tableOfCache (buildPossibleIndexMoves cache)) ws board

/-- `b` is reachable from `a` in one step of the adjacency table. -/
def adjacentB (a b : Nat) : Bool :=
  (getPossibleIndexMoves a).any (fun move => b == ((a : Int) + move).toNat)

/-- A simple path on the board: nonempty, no repeated cell, all cells in
`[0,15]`, consecutive cells adjacent per the adjacency table. -/
def IsSimplePath (path : List Nat) : Prop :=
  path ≠ [] ∧ path.Nodup ∧ (∀ c ∈ path, c < 16) ∧
    List.Chain' (fun a b => adjacentB a b = true) path

/-- Executable chain check: consecutive cells adjacent. -/
def chainAdjB : List Nat → Bool
  | [] => true
  | [_] => true
  | a :: b :: rest => adjacentB a b && chainAdjB (b :: rest)

lemma chainAdjB_iff : ∀ path : List Nat,
    chainAdjB path = true ↔ List.Chain' (fun a b => adjacentB a b = true) path
  | [] => by simp [chainAdjB]
  | [a] => by simp [chainAdjB]
  | a :: b :: rest => by
    rw [List.chain'_cons]
    rw [show chainAdjB (a :: b :: rest) = (adjacentB a b && chainAdjB (b :: rest)) from rfl]
    rw [Bool.and_eq_true, chainAdjB_iff (b :: rest)]

instance (path : List Nat) : Decidable (IsSimplePath path) :=
  decidable_of_iff
    (path ≠ [] ∧ path.Nodup ∧ (∀ c ∈ path, c < 16) ∧ chainAdjB path = true)
    (by unfold IsSimplePath; rw [chainAdjB_iff])

/-- `check_input_args` of `BoggleSolver.py`.  `fs` abstracts
`os.path.isfile`, and `joinData` abstracts `os.path.join(DATA_DIR, arg)`.
An `error` result models the raised `IOError` with its message. -/
def check_input_args (fs : String → Bool) (joinData : String → String)
    (dict_arg board_arg : String) : Except String (String × String) :=
  match (if fs dict_arg then some dict_arg
         else if fs (joinData dict_arg) then some (joinData dict_arg) else none) with
  | none => .error "Dictionary file not found."
  | some d =>
    match (if fs board_arg then some board_arg
           else if fs (joinData board_arg) then some (joinData board_arg) else none) with
    | none => .error "Board file not found."
    | some b => .ok (d, b)

/-- Count of unvisited cells, the termination measure of `_find_words`. -/
def falseCount (l : List Bool) : Nat := (l.filter (fun b => !b)).length

end BoggleSolver

instance instDecEqExcept {e a : Type} [DecidableEq e] [DecidableEq a] :
    DecidableEq (Except e a)
  | .error e1, .error e2 => decidable_of_iff (e1 = e2) (by simp)
  | .error _, .ok _ => .isFalse (by simp)
  | .ok _, .error _ => .isFalse (by simp)
  | .ok a1, .ok a2 => decidable_of_iff (a1 = a2) (by simp)

namespace BoggleSolver

/-- The two chained-comparison conditionals of `_get_possible_index_moves`
are dead code, so the function is the bounds check plus the column filters,
at every index. -/
lemma getMoves_eq_boundsAndSide (index : Nat) :
    getPossibleIndexMoves index = boundsAndSideMoves index := by
  simp [getPossibleIndexMoves, boundsAndSideMoves]

/-- Every move kept by the bounds filter lands inside `[0, 15]`. -/
lemma moves_bounds {index : Nat} {move : Int} (h : move ∈ getPossibleIndexMoves index) :
    0 ≤ (index : Int) + move ∧ (index : Int) + move ≤ 15 := by
  rw [getMoves_eq_boundsAndSide] at h
  unfold boundsAndSideMoves at h
  split at h
  · obtain ⟨h1, h2⟩ := List.mem_filter.mp h
    obtain ⟨h3, h4⟩ := List.mem_filter.mp h1
    simpa using h4
  · split at h
    · obtain ⟨h1, h2⟩ := List.mem_filter.mp h
      obtain ⟨h3, h4⟩ := List.mem_filter.mp h1
      simpa using h4
    · obtain ⟨h3, h4⟩ := List.mem_filter.mp h
      simpa using h4

/-- The target cell of every table move from `index` is in `[0, 15]`. -/
lemma moves_target_lt {index : Nat} {move : Int} (h : move ∈ getPossibleIndexMoves index) :
    ((index : Int) + move).toNat < 16 := by
  have := moves_bounds h
  omega

/-- The adjacency table never offers more than the eight king-move offsets. -/
lemma moves_length_le (index : Nat) : (getPossibleIndexMoves index).length ≤ 8 := by
  rw [getMoves_eq_boundsAndSide]
  unfold boundsAndSideMoves
  have hbase : ∀ p : Int → Bool,
      (([-5, -4, -3, -1, 1, 3, 4, 5] : List Int).filter p).length ≤ 8 := fun p =>
    List.length_filter_le p _
  split
  · exact le_trans (List.length_filter_le _ _) (hbase _)
  · split
    · exact le_trans (List.length_filter_le _ _) (hbase _)
    · exact hbase _

end BoggleSolver

namespace BoggleSolver

/-- **C3.** Adjacency-table correctness: for every position `pos` in `[0,15]`
the moves computed by `_get_possible_index_moves` reach exactly the king-move
neighbours of `pos` on the 4x4 grid (no horizontal or vertical wraparound),
and the result is identical to the variant with the two top/bottom-row
conditionals removed — the `[0,15]` bounds check together with the
left-column removal of `{-5,-1,3}` and right-column removal of `{-3,1,5}`
alone excludes every invalid vertical and diagonal move, the top/bottom-row
conditionals never taking effect. -/
theorem adjacency_table_correct (pos : Fin 16) :
    ((getPossibleIndexMoves pos).map
        (fun move => (((pos : Nat) : Int) + move).toNat)).toFinset
      = (kingNeighbors pos).toFinset ∧
    getPossibleIndexMoves pos = boundsAndSideMoves pos := by
  revert pos
  decide

/-- **C9.** `check_input_args` raises `IOError` iff an argument is neither an
existing file path nor the name of a file in the conventional data directory;
the dictionary argument is checked first (its error wins whenever both are
missing), and a non-error result carries the resolved paths: the argument
itself when it exists, otherwise its data-directory resolution. -/
theorem check_input_args_spec (fs : String → Bool) (joinData : String → String)
    (dict_arg board_arg : String) :
    (check_input_args fs joinData dict_arg board_arg = .error "Dictionary file not found."
       ↔ fs dict_arg = false ∧ fs (joinData dict_arg) = false) ∧
    (check_input_args fs joinData dict_arg board_arg = .error "Board file not found."
       ↔ (fs dict_arg = true ∨ fs (joinData dict_arg) = true) ∧
         fs board_arg = false ∧ fs (joinData board_arg) = false) ∧
    ((∃ p, check_input_args fs joinData dict_arg board_arg = .ok p)
       ↔ (fs dict_arg = true ∨ fs (joinData dict_arg) = true) ∧
         (fs board_arg = true ∨ fs (joinData board_arg) = true)) ∧
    (∀ d b, check_input_args fs joinData dict_arg board_arg = .ok (d, b) →
       d = (if fs dict_arg then dict_arg else joinData dict_arg) ∧
       b = (if fs board_arg then board_arg else joinData board_arg)) := by
  cases h1 : fs dict_arg <;> cases h2 : fs (joinData dict_arg) <;>
    cases h3 : fs board_arg <;> cases h4 : fs (joinData board_arg) <;>
    simp [check_input_args, h1, h2, h3, h4]

end BoggleSolver

namespace BoggleSolver

/-- The `cur_word` loop body appends exactly `cellChars`. -/
lemma buildCurWord_eq_foldl (board : List Char) (curPath : List Nat) :
    buildCurWord board curPath =
      curPath.foldl (fun cur_word pos => cur_word ++ cellChars board pos) [] := by
  unfold buildCurWord cellChars
  congr 1
  funext cur_word pos
  split
  · next h => rw [show board.getD pos ' ' = 'q' from by simpa using h]
  · rfl

lemma foldl_cellChars (board : List Char) :
    ∀ (curPath : List Nat) (acc : List Char),
      curPath.foldl (fun cur_word pos => cur_word ++ cellChars board pos) acc =
        acc ++ curPath.foldl (fun cur_word pos => cur_word ++ cellChars board pos) []
  | [], acc => by simp
  | pos :: rest, acc => by
    simp only [List.foldl_cons]
    rw [foldl_cellChars board rest (acc ++ cellChars board pos),
      foldl_cellChars board rest ([] ++ cellChars board pos)]
    simp

@[simp] lemma buildCurWord_nil (board : List Char) : buildCurWord board [] = [] := rfl

lemma buildCurWord_cons (board : List Char) (pos : Nat) (rest : List Nat) :
    buildCurWord board (pos :: rest) = cellChars board pos ++ buildCurWord board rest := by
  rw [buildCurWord_eq_foldl, buildCurWord_eq_foldl]
  simp only [List.foldl_cons]
  rw [foldl_cellChars]
  simp

lemma buildCurWord_append (board : List Char) (p q : List Nat) :
    buildCurWord board (p ++ q) = buildCurWord board p ++ buildCurWord board q := by
  induction p with
  | nil => simp
  | cons pos rest ih => simp [buildCurWord_cons, ih]

lemma cellChars_length_pos (board : List Char) (pos : Nat) :
    1 ≤ (cellChars board pos).length := by
  unfold cellChars; split <;> simp

lemma cellChars_length_le (board : List Char) (pos : Nat) :
    (cellChars board pos).length ≤ 2 := by
  unfold cellChars; split <;> simp

lemma length_le_buildCurWord (board : List Char) (p : List Nat) :
    p.length ≤ (buildCurWord board p).length := by
  induction p with
  | nil => simp
  | cons pos rest ih =>
    rw [buildCurWord_cons]
    have := cellChars_length_pos board pos
    simp only [List.length_append, List.length_cons]
    omega

lemma buildCurWord_singleton_length (board : List Char) (pos : Nat) :
    (buildCurWord board [pos]).length ≤ 2 := by
  have : buildCurWord board [pos] = cellChars board pos := by
    rw [buildCurWord_cons]; simp
  rw [this]; exact cellChars_length_le board pos

end BoggleSolver

namespace BoggleSolver

/-- **C5.** Digraph rule: each visited cell holding `'q'` contributes the
two-character sequence `"qu"` to the accumulated string at its place in the
path, even though the board holds no literal `'u'` there; consequently the
accumulated string is strictly longer than the path whenever the path visits
a `'q'` cell. -/
theorem digraph_rule (board : List Char) :
    (∀ (pre : List Nat) (pos : Nat) (post : List Nat), board.getD pos ' ' = 'q' →
       buildCurWord board (pre ++ pos :: post) =
         buildCurWord board pre ++ 'q' :: 'u' :: buildCurWord board post) ∧
    (∀ path : List Nat, (∃ pos ∈ path, board.getD pos ' ' = 'q') →
       path.length < (buildCurWord board path).length) := by
  constructor
  · intro pre pos post hq
    rw [buildCurWord_append, buildCurWord_cons]
    have hcell : cellChars board pos = ['q', 'u'] := by
      unfold cellChars
      rw [if_pos (by simpa using hq)]
    rw [hcell]
    simp
  · intro path hq
    induction path with
    | nil => simp at hq
    | cons pos rest ih =>
      rw [buildCurWord_cons]
      simp only [List.length_append, List.length_cons]
      obtain ⟨p, hp, hpq⟩ := hq
      rcases List.mem_cons.mp hp with rfl | hp
      · have hcell : (cellChars board p).length = 2 := by
          unfold cellChars
          rw [if_pos (by simpa using hpq)]
          rfl
        have := length_le_buildCurWord board rest
        omega
      · have hrec := ih ⟨p, hp, hpq⟩
        have := cellChars_length_pos board pos
        omega

/-- Witness for the digraph theorem: the board `"qaxx..."` (a `'q'` at cell 0,
`'a'` at cell 1) spells `"qua"` along the path `[0, 1]`, and that accumulated
string is strictly longer than the path. -/
theorem digraph_rule_witness :
    buildCurWord ("qaxxxxxxxxxxxxxx".toList) ([] ++ 0 :: [1]) =
      buildCurWord ("qaxxxxxxxxxxxxxx".toList) [] ++
        'q' :: 'u' :: buildCurWord ("qaxxxxxxxxxxxxxx".toList) [1] ∧
    ([0, 1] : List Nat).length < (buildCurWord ("qaxxxxxxxxxxxxxx".toList) [0, 1]).length :=
  ⟨(digraph_rule ("qaxxxxxxxxxxxxxx".toList)).1 [] 0 [1] (by decide),
   (digraph_rule ("qaxxxxxxxxxxxxxx".toList)).2 [0, 1] ⟨0, by decide, by decide⟩⟩

end BoggleSolver


namespace BoggleSolver

lemma contains_true_iff {α : Type} [BEq α] [LawfulBEq α] (l : List α) (a : α) :
    l.contains a = true ↔ a ∈ l := by simp

lemma contains_false_iff {α : Type} [BEq α] [LawfulBEq α] (l : List α) (a : α) :
    l.contains a = false ↔ a ∉ l := by simp

lemma alphabet_nodup : alphabet.Nodup := by decide

lemma missingBase_nodup (board : List Char) :
    (alphabet.filter (fun letter => !(board.contains letter))).Nodup :=
  alphabet_nodup.filter _

lemma mem_missingBase (board : List Char) (c : Char) :
    c ∈ alphabet.filter (fun letter => !(board.contains letter)) ↔
      c ∈ alphabet ∧ c ∉ board := by
  simp [List.mem_filter]

/-- Characterisation of the final missing-letter list on alphabet letters:
a letter is not missing iff it is on the board, or it is `'u'` and the board
has a `'q'`. -/
lemma not_mem_missing_iff (board : List Char) (c : Char) (hc : c ∈ alphabet) :
    c ∉ missingLetters board ↔ c ∈ board ∨ (c = 'u' ∧ 'q' ∈ board) := by
  simp only [missingLetters]
  split
  · next hcond =>
    simp only [Bool.and_eq_true, Bool.not_eq_eq_eq_not, Bool.not_true] at hcond
    obtain ⟨hq, hu⟩ := hcond
    have hqboard : 'q' ∈ board := by
      by_contra hqb
      exact ((contains_false_iff _ 'q').mp hq)
        ((mem_missingBase board 'q').mpr ⟨by decide, hqb⟩)
    rw [(missingBase_nodup board).mem_erase_iff]
    constructor
    · intro h
      by_cases hcu : c = 'u'
      · exact Or.inr ⟨hcu, hqboard⟩
      · left
        by_contra hcb
        exact h ⟨hcu, (mem_missingBase board c).mpr ⟨hc, hcb⟩⟩
    · intro h hmem
      obtain ⟨hne, hmm⟩ := hmem
      obtain ⟨_, hcb⟩ := (mem_missingBase board c).mp hmm
      rcases h with hb | ⟨hcu, _⟩
      · exact hcb hb
      · exact hne hcu
  · next hcond =>
    simp only [Bool.and_eq_true, not_and, Bool.not_eq_eq_eq_not, Bool.not_true,
      Bool.not_eq_true] at hcond
    constructor
    · intro h
      left
      by_contra hcb
      exact h ((mem_missingBase board c).mpr ⟨hc, hcb⟩)
    · intro h hmem
      obtain ⟨_, hcb⟩ := (mem_missingBase board c).mp hmem
      rcases h with hb | ⟨hcu, hqb⟩
      · exact hcb hb
      · subst hcu
        have hqfalse :
            (alphabet.filter (fun letter => !(board.contains letter))).contains 'q' = false :=
          (contains_false_iff _ 'q').mpr fun hmm =>
            ((mem_missingBase board 'q').mp hmm).2 hqb
        exact ((contains_false_iff _ 'u').mp (hcond hqfalse))
          ((mem_missingBase board 'u').mpr ⟨by decide, hcb⟩)

end BoggleSolver

namespace BoggleSolver

/-- **C4.** Dictionary filter membership: a raw word over the lowercase
alphabet survives into the index exactly when its length is between 3 and 17
and every one of its letters is on the board — `'u'` counting as on the board
whenever the board contains a `'q'` (even with no literal `'u'`). -/
theorem dictionary_filter_spec (ws : List (List Char)) (board : List Char)
    (w : List Char) (hw : ∀ c ∈ w, c ∈ alphabet) :
    w ∈ unsortedValidWords ws board ↔
      w ∈ ws ∧ 3 ≤ w.length ∧ w.length ≤ 17 ∧
        ∀ c ∈ w, c ∈ board ∨ (c = 'u' ∧ 'q' ∈ board) := by
  unfold unsortedValidWords dictWords
  simp only [List.mem_filter, Bool.and_eq_true, decide_eq_true_eq,
    Bool.not_eq_eq_eq_not, Bool.not_true, List.any_eq_false, Bool.not_eq_true]
  constructor
  · rintro ⟨⟨hmem, hlen1, hlen2⟩, hmiss⟩
    refine ⟨hmem, by omega, by omega, ?_⟩
    intro c hcw
    rw [← not_mem_missing_iff board c (hw c hcw)]
    intro hcmiss
    exact ((contains_false_iff w c).mp (hmiss c hcmiss)) hcw
  · rintro ⟨hmem, hlen1, hlen2, hboard⟩
    refine ⟨⟨hmem, by omega, by omega⟩, ?_⟩
    intro letter hl
    exact (contains_false_iff w letter).mpr fun hlw =>
      ((not_mem_missing_iff board letter (hw letter hlw)).mpr (hboard letter hlw)) hl

/-- Witness for the dictionary filter theorem: on the board `"qaxx..."` the
word `"qua"` survives (its `'u'` is implied by the `'q'` cell), giving a
concrete instance of the equivalence. -/
theorem dictionary_filter_witness :
    ['q', 'u', 'a'] ∈ unsortedValidWords [['q', 'u', 'a']] ("qaxxxxxxxxxxxxxx".toList) ↔
      ['q', 'u', 'a'] ∈ [['q', 'u', 'a']] ∧ 3 ≤ (['q', 'u', 'a'] : List Char).length ∧
        (['q', 'u', 'a'] : List Char).length ≤ 17 ∧
        ∀ c ∈ (['q', 'u', 'a'] : List Char),
          c ∈ ("qaxxxxxxxxxxxxxx".toList) ∨ (c = 'u' ∧ 'q' ∈ ("qaxxxxxxxxxxxxxx".toList)) :=
  dictionary_filter_spec [['q', 'u', 'a']] ("qaxxxxxxxxxxxxxx".toList) ['q', 'u', 'a']
    (by decide)

end BoggleSolver

namespace BoggleSolver

lemma lexLe_total : ∀ a b : List Char, lexLe a b = true ∨ lexLe b a = true
  | [], _ => Or.inl rfl
  | _ :: _, [] => Or.inr rfl
  | a :: as, b :: bs => by
    unfold lexLe
    rcases lt_trichotomy a b with h | h | h
    · left; rw [if_pos h]
    · subst h
      rcases lexLe_total as bs with ih | ih
      · left; rw [if_neg (lt_irrefl a), if_pos rfl]; exact ih
      · right; rw [if_neg (lt_irrefl a), if_pos rfl]; exact ih
    · right; rw [if_pos h]

lemma lexLe_trans : ∀ a b c : List Char,
    lexLe a b = true → lexLe b c = true → lexLe a c = true
  | [], _, _ => fun _ _ => rfl
  | _ :: _, [], _ => fun h _ => by simp [lexLe] at h
  | _ :: _, _ :: _, [] => fun _ h => by simp [lexLe] at h
  | a :: as, b :: bs, c :: cs => fun hab hbc => by
    unfold lexLe at hab hbc ⊢
    by_cases h1 : a < b
    · by_cases h2 : b < c
      · rw [if_pos (lt_trans h1 h2)]
      · rw [if_neg h2] at hbc
        by_cases h3 : b = c
        · subst h3; rw [if_pos h1]
        · rw [if_neg h3] at hbc; exact absurd hbc (by simp)
    · rw [if_neg h1] at hab
      by_cases h1e : a = b
      · subst h1e
        rw [if_pos rfl] at hab
        by_cases h2 : a < c
        · rw [if_pos h2]
        · rw [if_neg h2] at hbc ⊢
          by_cases h3 : a = c
          · rw [if_pos h3] at hbc ⊢
            exact lexLe_trans as bs cs hab hbc
          · rw [if_neg h3] at hbc; exact absurd hbc (by simp)
      · rw [if_neg h1e] at hab; exact absurd hab (by simp)

lemma lexLt_of_lexLe_ne : ∀ a b : List Char,
    lexLe a b = true → a ≠ b → lexLt a b = true
  | [], [] => fun _ h => absurd rfl h
  | [], _ :: _ => fun _ _ => rfl
  | _ :: _, [] => fun h _ => by simp [lexLe] at h
  | a :: as, b :: bs => fun hle hne => by
    unfold lexLe at hle
    unfold lexLt
    by_cases h1 : a < b
    · rw [if_pos h1]
    · rw [if_neg h1] at hle ⊢
      by_cases h2 : a = b
      · rw [if_pos h2] at hle ⊢
        subst h2
        exact lexLt_of_lexLe_ne as bs hle (fun hh => hne (by rw [hh]))
      · rw [if_neg h2] at hle; exact absurd hle (by simp)

lemma mem_insertSorted (w x : List Char) :
    ∀ l : List (List Char), x ∈ insertSorted w l ↔ x = w ∨ x ∈ l
  | [] => by simp [insertSorted]
  | y :: ys => by
    unfold insertSorted
    split
    · simp
    · rw [List.mem_cons, mem_insertSorted w x ys]
      constructor
      · rintro (h | h | h)
        · exact Or.inr (List.mem_cons.mpr (Or.inl h))
        · exact Or.inl h
        · exact Or.inr (List.mem_cons.mpr (Or.inr h))
      · rintro (h | h)
        · exact Or.inr (Or.inl h)
        · rcases List.mem_cons.mp h with h | h
          · exact Or.inl h
          · exact Or.inr (Or.inr h)

lemma perm_insertSorted (w : List Char) :
    ∀ l : List (List Char), List.Perm (insertSorted w l) (w :: l)
  | [] => List.Perm.refl _
  | y :: ys => by
    unfold insertSorted
    split
    · exact List.Perm.refl _
    · exact List.Perm.trans ((perm_insertSorted w ys).cons y) (List.Perm.swap w y ys)

lemma pairwise_insertSorted (w : List Char) :
    ∀ l : List (List Char), l.Pairwise (fun a b => lexLe a b = true) →
      (insertSorted w l).Pairwise (fun a b => lexLe a b = true)
  | [], _ => by simp [insertSorted]
  | y :: ys, h => by
    unfold insertSorted
    obtain ⟨hy, hys⟩ := List.pairwise_cons.mp h
    split
    · next hle =>
      refine List.pairwise_cons.mpr ⟨?_, h⟩
      intro z hz
      rcases List.mem_cons.mp hz with rfl | hz
      · exact hle
      · exact lexLe_trans w y z hle (hy z hz)
    · next hnle =>
      refine List.pairwise_cons.mpr ⟨?_, pairwise_insertSorted w ys hys⟩
      intro z hz
      rcases (mem_insertSorted w z ys).mp hz with rfl | hz
      · rcases lexLe_total z y with h | h
        · exact absurd h hnle
        · exact h
      · exact hy z hz

lemma perm_sortWords : ∀ l : List (List Char), List.Perm (sortWords l) l
  | [] => List.Perm.refl _
  | x :: xs => by
    unfold sortWords
    exact List.Perm.trans (perm_insertSorted x (sortWords xs)) ((perm_sortWords xs).cons x)

lemma mem_sortWords (x : List Char) (l : List (List Char)) :
    x ∈ sortWords l ↔ x ∈ l := (perm_sortWords l).mem_iff

lemma pairwise_sortWords : ∀ l : List (List Char),
    (sortWords l).Pairwise (fun a b => lexLe a b = true)
  | [] => List.Pairwise.nil
  | x :: xs => pairwise_insertSorted x (sortWords xs) (pairwise_sortWords xs)

/-- Inversion of a successful solve: the dictionary build succeeded, the 16
start searches all succeeded, and the output is the sorted deduplication of
everything they recorded. -/
lemma solveWith_ok {table : Nat → List Int} {ws : List (List Char)} {board : List Char}
    {r : List (List Char)} (h : solveWith table ws board = .ok r) :
    buildOk ws board = true ∧ ∃ collected,
      runSeq (fun i => findWords table (validWordsBucket ws board) board 17 i
        (List.replicate 16 false) []) (List.range 16) = .ok collected ∧
      r = sortWords collected.dedup := by
  unfold solveWith at h
  split at h
  · next hb =>
    refine ⟨hb, ?_⟩
    split at h
    · exact absurd h (by simp)
    · next collected hrun =>
      exact ⟨collected, hrun, by injection h with h; exact h.symm⟩
  · exact absurd h (by simp)

end BoggleSolver

namespace BoggleSolver

/-- **C6.** Output ordering and uniqueness: every output sequence the solver
produces is strictly increasing in lexicographic order over
`'a' < 'b' < ... < 'z'` — in particular it contains no duplicates, a word
reachable by several paths appearing once. -/
theorem output_strictly_sorted (ws : List (List Char)) (board : List Char)
    (r : List (List Char)) (h : solveBoard ws board = .ok r) :
    r.Pairwise (fun a b => lexLt a b = true) := by
  obtain ⟨-, collected, -, hr⟩ := solveWith_ok h
  subst hr
  have hsorted := pairwise_sortWords collected.dedup
  have hnodup : (sortWords collected.dedup).Nodup :=
    (perm_sortWords collected.dedup).symm.nodup (List.nodup_dedup collected)
  exact (hsorted.and hnodup).imp fun h => lexLt_of_lexLe_ne _ _ h.1 h.2

/-- Witness for the ordering theorem: a concrete solve (board `"viaxxx..."`,
dictionary `{"via"}`) returns `.ok ["via"]`, and the theorem yields its
strict sortedness. -/
theorem output_strictly_sorted_witness :
    ([['v', 'i', 'a']] : List (List Char)).Pairwise (fun a b => lexLt a b = true) :=
  output_strictly_sorted [['v', 'i', 'a']] ("viaxxxxxxxxxxxxx".toList) [['v', 'i', 'a']] rfl

end BoggleSolver

namespace BoggleSolver

lemma getD_set_ne {α : Type} : ∀ (l : List α) (i j : Nat) (a d : α), i ≠ j →
    (l.set i a).getD j d = l.getD j d
  | [], _, _, _, _, _ => rfl
  | _ :: _, 0, 0, _, _, h => absurd rfl h
  | _ :: _, 0, _ + 1, _, _, _ => rfl
  | _ :: _, _ + 1, 0, _, _, _ => rfl
  | _ :: t, i + 1, j + 1, a, d, h =>
    getD_set_ne t i j a d (fun hh => h (by rw [hh]))

lemma getD_set_self {α : Type} : ∀ (l : List α) (i : Nat) (a d : α), i < l.length →
    (l.set i a).getD i d = a
  | [], i, _, _, h => absurd h (by simp)
  | _ :: _, 0, _, _, _ => rfl
  | _ :: t, i + 1, a, d, h => getD_set_self t i a d (by simpa using h)

lemma lt_length_of_getD_ne {α : Type} : ∀ (l : List α) (i : Nat) (d : α),
    l.getD i d ≠ d → i < l.length
  | [], i, _, h => absurd rfl h
  | _ :: _, 0, _, _ => by simp
  | _ :: t, i + 1, d, h => by
    have := lt_length_of_getD_ne t i d h
    simpa using this

lemma getD_append_left {α : Type} : ∀ (l t : List α) (i : Nat) (d : α), i < l.length →
    (l ++ t).getD i d = l.getD i d
  | [], _, i, _, h => absurd h (by simp)
  | _ :: _, _, 0, _, _ => rfl
  | _ :: l, t, i + 1, d, h => getD_append_left l t i d (by simpa using h)

lemma getD_replicate_lt {α : Type} : ∀ (n i : Nat) (a d : α), i < n →
    (List.replicate n a).getD i d = a
  | 0, i, _, _, h => absurd h (by simp)
  | n + 1, 0, _, _, _ => rfl
  | n + 1, i + 1, a, d, h => getD_replicate_lt n i a d (by omega)

lemma getD_of_getD_set_false (l : List Bool) (i j : Nat)
    (h : (l.set i true).getD j true = false) : l.getD j true = false := by
  by_cases hij : i = j
  · exfalso
    rw [← hij] at h
    have hlt : i < l.length := by
      have h2 := lt_length_of_getD_ne (l.set i true) i true (by rw [h]; simp)
      simpa using h2
    rw [getD_set_self l i true true hlt] at h
    exact absurd h (by simp)
  · rwa [getD_set_ne l i j true true hij] at h

lemma falseCount_set : ∀ (l : List Bool) (i : Nat),
    l.getD i true = false → falseCount (l.set i true) + 1 = falseCount l
  | [], i, h => by rw [List.getD_nil] at h; exact absurd h (by simp)
  | b :: t, 0, h => by
    have hb : b = false := h
    subst hb
    simp [falseCount, List.filter]
  | b :: t, i + 1, h => by
    have := falseCount_set t i h
    cases b <;> simp [falseCount, List.filter] at this ⊢ <;> omega

lemma falseCount_set_le : ∀ (l : List Bool) (i : Nat),
    falseCount (l.set i true) ≤ falseCount l
  | [], _ => le_refl _
  | b :: t, 0 => by cases b <;> simp [falseCount, List.filter]
  | b :: t, i + 1 => by
    have := falseCount_set_le t i
    cases b <;> simp [falseCount, List.filter] at this ⊢ <;> omega

lemma falseCount_replicate16 : falseCount (List.replicate 16 false) = 16 := by decide

/-- A sequential run that fails yields a failing element. -/
lemma runSeq_error_cases {α : Type} (f : α → Except FindErr (List (List Char))) :
    ∀ (l : List α) (e : FindErr), runSeq f l = .error e → ∃ a ∈ l, f a = .error e
  | [], e => by simp [runSeq]
  | a :: rest, e => by
    unfold runSeq
    cases hfa : f a with
    | error e2 =>
      intro h
      injection h with h
      exact ⟨a, List.mem_cons_self a rest, by rw [hfa, h]⟩
    | ok r =>
      cases hrest : runSeq f rest with
      | error e2 =>
        intro h
        injection h with h
        obtain ⟨b, hb, hfb⟩ := runSeq_error_cases f rest e2 hrest
        exact ⟨b, List.mem_cons_of_mem a hb, by rw [hfb, h]⟩
      | ok r2 => intro h; exact absurd h (by simp)

/-- Every word in a successful sequential run comes from some element. -/
lemma runSeq_ok_mem {α : Type} (f : α → Except FindErr (List (List Char))) :
    ∀ (l : List α) (r : List (List Char)), runSeq f l = .ok r →
      ∀ w ∈ r, ∃ a ∈ l, ∃ ra, f a = .ok ra ∧ w ∈ ra
  | [], r => by
    intro h
    injection h with h
    subst h
    simp
  | a :: rest, r => by
    unfold runSeq
    cases hfa : f a with
    | error e => intro h; exact absurd h (by simp)
    | ok ra =>
      cases hrest : runSeq f rest with
      | error e => intro h; exact absurd h (by simp)
      | ok r2 =>
        intro h w hw
        injection h with h
        subst h
        rcases List.mem_append.mp hw with hw | hw
        · exact ⟨a, List.mem_cons_self a rest, ra, hfa, hw⟩
        · obtain ⟨b, hb, rb, hfb, hwb⟩ := runSeq_ok_mem f rest r2 hrest w hw
          exact ⟨b, List.mem_cons_of_mem a hb, rb, hfb, hwb⟩

/-- In a successful sequential run every element succeeded, and its words are
all in the total. -/
lemma runSeq_ok_of_mem {α : Type} (f : α → Except FindErr (List (List Char))) :
    ∀ (l : List α) (r : List (List Char)), runSeq f l = .ok r →
      ∀ a ∈ l, ∃ ra, f a = .ok ra ∧ ∀ w ∈ ra, w ∈ r
  | [], r => by simp
  | a :: rest, r => by
    unfold runSeq
    cases hfa : f a with
    | error e => intro h; exact absurd h (by simp)
    | ok ra =>
      cases hrest : runSeq f rest with
      | error e => intro h; exact absurd h (by simp)
      | ok r2 =>
        intro h b hb
        injection h with h
        subst h
        rcases List.mem_cons.mp hb with rfl | hb
        · exact ⟨ra, hfa, fun w hw => List.mem_append.mpr (Or.inl hw)⟩
        · obtain ⟨rb, hfb, hsub⟩ := runSeq_ok_of_mem f rest r2 hrest b hb
          exact ⟨rb, hfb, fun w hw => List.mem_append.mpr (Or.inr (hsub w hw))⟩

/-- If every element succeeds, the sequential run succeeds. -/
lemma runSeq_ok_of_all {α : Type} (f : α → Except FindErr (List (List Char))) :
    ∀ l : List α, (∀ a ∈ l, ∃ ra, f a = .ok ra) → ∃ r, runSeq f l = .ok r
  | [], _ => ⟨[], rfl⟩
  | a :: rest, h => by
    obtain ⟨ra, hra⟩ := h a (List.mem_cons_self a rest)
    obtain ⟨r2, hr2⟩ := runSeq_ok_of_all f rest
      (fun b hb => h b (List.mem_cons_of_mem a hb))
    exact ⟨ra ++ r2, by unfold runSeq; rw [hra, hr2]⟩

/-- Pointwise-equal actions give equal sequential runs. -/
lemma runSeq_congr {α : Type} (f g : α → Except FindErr (List (List Char))) :
    ∀ l : List α, (∀ a ∈ l, f a = g a) → runSeq f l = runSeq g l
  | [], _ => rfl
  | a :: rest, h => by
    unfold runSeq
    rw [h a (List.mem_cons_self a rest),
      runSeq_congr f g rest (fun b hb => h b (List.mem_cons_of_mem a hb))]

end BoggleSolver

namespace BoggleSolver

/-- `_find_words` cannot run out of fuel when the fuel exceeds the number of
unvisited cells: each recursive call is into a cell that the `available_moves`
filter certifies unvisited, and marking it shrinks the count. -/
lemma findWords_ne_outOfFuel (table : Nat → List Int)
    (vw : Char → Char → Option (List (List Char))) (board : List Char) :
    ∀ (fuel index : Nat) (used : List Bool) (path : List Nat),
      falseCount (used.set index true) < fuel →
      findWords table vw board fuel index used path ≠ .error .outOfFuel
  | 0, index, used, path => by intro hfuel; omega
  | fuel + 1, index, used, path => by
    intro hfuel
    have hrec : ∀ move ∈ (table index).filter (fun move =>
        !((used.set index true).getD ((index : Int) + move).toNat true)),
        findWords table vw board fuel ((index : Int) + move).toNat
          (used.set index true) (path ++ [index]) ≠ .error .outOfFuel := by
      intro move hmove
      obtain ⟨hmem, hfilter⟩ := List.mem_filter.mp hmove
      have hfalse : (used.set index true).getD ((index : Int) + move).toNat true = false := by
        simpa using hfilter
      have hcount := falseCount_set (used.set index true) ((index : Int) + move).toNat hfalse
      exact findWords_ne_outOfFuel table vw board fuel ((index : Int) + move).toNat
        (used.set index true) (path ++ [index]) (by omega)
    simp only [findWords]
    split
    · split
      · simp
      · intro hcontra
        obtain ⟨move, hmove, hfmove⟩ := runSeq_error_cases _ _ _ hcontra
        exact hrec move hmove hfmove
    · split
      · simp
      · split
        · split
          · next e heq =>
            intro hcontra
            injection hcontra with hcontra
            subst hcontra
            obtain ⟨move, hmove, hfmove⟩ := runSeq_error_cases _ _ _ heq
            exact hrec move hmove hfmove
          · simp
        · simp

end BoggleSolver

namespace BoggleSolver

/-- **C7.** Termination: the recursive search always terminates — with any
adjacency table, any dictionary index and any board, a solve never exhausts
its fuel of 17, because every recursive call marks one more of the 16 cells
visited and only unvisited neighbour cells are recursed into; moreover the
branching factor is bounded by the 8 king-move offsets of the adjacency
table. -/
theorem search_terminates :
    (∀ (table : Nat → List Int) (ws : List (List Char)) (board : List Char),
       solveWith table ws board ≠ .error .outOfFuel) ∧
    (∀ index : Nat, (getPossibleIndexMoves index).length ≤ 8) := by
  constructor
  · intro table ws board
    unfold solveWith
    split
    · split
      · next e heq =>
        intro hcontra
        injection hcontra with hcontra
        subst hcontra
        obtain ⟨i, hi, hfi⟩ := runSeq_error_cases _ _ _ heq
        refine findWords_ne_outOfFuel table (validWordsBucket ws board) board 17 i
          (List.replicate 16 false) [] ?_ hfi
        have h1 := falseCount_set_le (List.replicate 16 false) i
        rw [falseCount_replicate16] at h1
        omega
      · simp
    · simp
  · exact moves_length_le

end BoggleSolver

namespace BoggleSolver

lemma mem_present_iff (board : List Char) (c : Char) :
    c ∈ presentLetters board ↔ c ∈ alphabet ∧ c ∉ missingLetters board := by
  simp [presentLetters, List.mem_filter]

lemma board_letter_present (board : List Char) (halpha : ∀ c ∈ board, c ∈ alphabet)
    (c : Char) (hc : c ∈ board) : c ∈ presentLetters board := by
  rw [mem_present_iff]
  exact ⟨halpha c hc, (not_mem_missing_iff board c (halpha c hc)).mpr (Or.inl hc)⟩

lemma u_present_of_q (board : List Char) (hq : 'q' ∈ board) :
    'u' ∈ presentLetters board := by
  rw [mem_present_iff]
  exact ⟨by decide, (not_mem_missing_iff board 'u' (by decide)).mpr (Or.inr ⟨rfl, hq⟩)⟩

lemma getD_mem_self {α : Type} (l : List α) (i : Nat) (d : α) (h : i < l.length) :
    l.getD i d ∈ l := by
  rw [List.getD_eq_getElem l d h]
  exact List.getElem_mem h

lemma getD_mem_board (board : List Char) (hlen : board.length = 16) (pos : Nat)
    (hpos : pos < 16) : board.getD pos ' ' ∈ board :=
  getD_mem_self board pos ' ' (by omega)

/-- On a validated board every character of an accumulated word is a present
letter: board letters are on the board, and the `'u'` injected after a `'q'`
is present because the `'q'` cell makes `'u'` present. -/
lemma curWord_chars_present (board : List Char) (hlen : board.length = 16)
    (halpha : ∀ c ∈ board, c ∈ alphabet) :
    ∀ path : List Nat, (∀ p ∈ path, p < 16) →
      ∀ c ∈ buildCurWord board path, c ∈ presentLetters board
  | [], _ => by simp
  | pos :: rest, h16 => by
    rw [buildCurWord_cons]
    intro c hc
    rcases List.mem_append.mp hc with hc | hc
    · unfold cellChars at hc
      split at hc
      · next hq =>
        have hqb : 'q' ∈ board := by
          have hm := getD_mem_board board hlen pos (h16 pos (by simp))
          rwa [show board.getD pos ' ' = 'q' from by simpa using hq] at hm
        rcases List.mem_cons.mp hc with rfl | hc
        · exact board_letter_present board halpha 'q' hqb
        · rcases List.mem_cons.mp hc with rfl | hc
          · exact u_present_of_q board hqb
          · simp at hc
      · rcases List.mem_cons.mp hc with rfl | hc
        · exact board_letter_present board halpha _
            (getD_mem_board board hlen pos (h16 pos (by simp)))
        · simp at hc
    · exact curWord_chars_present board hlen halpha rest
        (fun p hp => h16 p (by simp [hp])) c hc

lemma bucket_some (ws : List (List Char)) (board : List Char)
    (c1 c2 : Char) (h1 : c1 ∈ presentLetters board) (h2 : c2 ∈ presentLetters board) :
    validWordsBucket ws board c1 c2 =
      some ((unsortedValidWords ws board).filter (fun word =>
        word.getD 0 ' ' == c1 && word.getD 1 ' ' == c2)) := by
  unfold validWordsBucket
  rw [if_pos]
  rw [Bool.and_eq_true]
  exact ⟨(contains_true_iff _ c1).mpr h1, (contains_true_iff _ c2).mpr h2⟩

/-- On validated inputs `_find_words` never fails: the nested dictionary
lookups always hit existing keys, and the fuel suffices. -/
lemma findWords_ok (ws : List (List Char)) (board : List Char)
    (hlen : board.length = 16) (halpha : ∀ c ∈ board, c ∈ alphabet) :
    ∀ (fuel index : Nat) (used : List Bool) (path : List Nat),
      falseCount (used.set index true) < fuel → index < 16 → (∀ p ∈ path, p < 16) →
      ∃ r, findWords getPossibleIndexMoves (validWordsBucket ws board) board
        fuel index used path = .ok r
  | 0, index, used, path => fun hfuel _ _ => absurd hfuel (Nat.not_lt_zero _)
  | fuel + 1, index, used, path => by
    intro hfuel hidx hpath
    have hall : ∀ p ∈ path ++ [index], p < 16 := by
      intro p hp
      rcases List.mem_append.mp hp with hp | hp
      · exact hpath p hp
      · simp at hp
        omega
    have hrec : ∀ move ∈ (getPossibleIndexMoves index).filter (fun move =>
        !((used.set index true).getD ((index : Int) + move).toNat true)),
        ∃ r, findWords getPossibleIndexMoves (validWordsBucket ws board) board fuel
          ((index : Int) + move).toNat (used.set index true) (path ++ [index]) = .ok r := by
      intro move hmove
      obtain ⟨hmem, hfilter⟩ := List.mem_filter.mp hmove
      have hfalse : (used.set index true).getD ((index : Int) + move).toNat true = false := by
        simpa using hfilter
      have hcount := falseCount_set (used.set index true) ((index : Int) + move).toNat hfalse
      exact findWords_ok ws board hlen halpha fuel ((index : Int) + move).toNat
        (used.set index true) (path ++ [index]) (by omega) (moves_target_lt hmem) hall
    simp only [findWords]
    split
    · split
      · exact ⟨[], rfl⟩
      · exact runSeq_ok_of_all _ _ hrec
    · next hlen1 =>
      have hcur2 : 2 ≤ (buildCurWord board (path ++ [index])).length := by
        have hple : 2 ≤ (path ++ [index]).length := by
          have hne : (path ++ [index]).length ≠ 1 := by simpa using hlen1
          have hp : (path ++ [index]).length = path.length + 1 := by simp
          omega
        exact le_trans hple (length_le_buildCurWord board _)
      have hkeys : ∀ i, i < 2 →
          (buildCurWord board (path ++ [index])).getD i ' ' ∈ presentLetters board := by
        intro i hi
        exact curWord_chars_present board hlen halpha (path ++ [index]) hall _
          (getD_mem_self _ i ' ' (by omega))
      rw [bucket_some ws board _ _ (hkeys 0 (by omega)) (hkeys 1 (by omega))]
      split
      · next heq => exact absurd heq (by simp)
      · next bucket heq =>
        split
        · obtain ⟨rs, hrs⟩ := runSeq_ok_of_all _ _ hrec
          rw [hrs]
          exact ⟨_, rfl⟩
        · exact ⟨_, rfl⟩

/-- On an all-lowercase dictionary the nested-dictionary build never fails:
every surviving word's first two letters are present letters. -/
lemma buildOk_of_valid (ws : List (List Char)) (board : List Char)
    (hws : ∀ w ∈ ws, ∀ c ∈ w, c ∈ alphabet) : buildOk ws board = true := by
  unfold buildOk
  rw [List.all_eq_true]
  intro w hw
  have hw2 := hw
  unfold unsortedValidWords at hw2
  obtain ⟨hdict, hmiss⟩ := List.mem_filter.mp hw2
  unfold dictWords at hdict
  obtain ⟨hmem, hlen⟩ := List.mem_filter.mp hdict
  simp only [Bool.and_eq_true, decide_eq_true_eq] at hlen
  have hpresent : ∀ c ∈ w, c ∈ presentLetters board := by
    intro c hc
    rw [mem_present_iff]
    refine ⟨hws w hmem c hc, ?_⟩
    intro hcmiss
    simp only [Bool.not_eq_eq_eq_not, Bool.not_true, List.any_eq_false] at hmiss
    exact (hmiss c hcmiss) ((contains_true_iff w c).mpr hc)
  rw [Bool.and_eq_true]
  constructor
  · exact (contains_true_iff _ _).mpr (hpresent _ (getD_mem_self w 0 ' ' (by omega)))
  · exact (contains_true_iff _ _).mpr (hpresent _ (getD_mem_self w 1 ' ' (by omega)))

end BoggleSolver

namespace BoggleSolver

/-- **C10.** Bucket-lookup safety: for a validated 16-letter board over
`a`-`z` and a dictionary of lowercase `a`-`z` words, the two-level
`valid_words` lookups during the build, the prefix test, the word test and
the word insertion never fail with a missing key (the `'u'` produced by a
`'q'` cell is counted present), and the fuel never runs out — the solve
always returns a result. -/
theorem bucket_lookups_safe (ws : List (List Char)) (board : List Char)
    (hlen : board.length = 16) (halpha : ∀ c ∈ board, c ∈ alphabet)
    (hws : ∀ w ∈ ws, ∀ c ∈ w, c ∈ alphabet) :
    ∃ r, solveBoard ws board = .ok r := by
  unfold solveBoard solveWith
  rw [if_pos (buildOk_of_valid ws board hws)]
  obtain ⟨collected, hcollected⟩ := runSeq_ok_of_all _ (List.range 16) (fun i hi => by
    apply findWords_ok ws board hlen halpha 17 i (List.replicate 16 false) []
    · have h1 := falseCount_set_le (List.replicate 16 false) i
      rw [falseCount_replicate16] at h1
      omega
    · exact List.mem_range.mp hi
    · simp)
  rw [hcollected]
  exact ⟨_, rfl⟩

/-- Witness for the lookup-safety theorem at a concrete validated input. -/
theorem bucket_lookups_safe_witness :
    ∃ r, solveBoard [['v', 'i', 'a']] ("viaxxxxxxxxxxxxx".toList) = .ok r :=
  bucket_lookups_safe [['v', 'i', 'a']] ("viaxxxxxxxxxxxxx".toList)
    (by decide) (by decide) (by decide)

end BoggleSolver

namespace BoggleSolver

/-- Soundness invariant of `_find_words`: starting from a visited set that
marks exactly the cells of the path so far, and a current simple path, every
word the call records is a surviving dictionary word spelled by some simple
path on the board. -/
lemma findWords_sound (ws : List (List Char)) (board : List Char) :
    ∀ (fuel index : Nat) (used : List Bool) (path : List Nat) (r : List (List Char)),
      findWords getPossibleIndexMoves (validWordsBucket ws board) board
        fuel index used path = .ok r →
      used.length = 16 →
      (∀ c, c < 16 → (used.getD c true = true ↔ c ∈ path)) →
      IsSimplePath (path ++ [index]) →
      ∀ w ∈ r, w ∈ unsortedValidWords ws board ∧
        ∃ p, IsSimplePath p ∧ buildCurWord board p = w
  | 0, index, used, path, r => fun h => absurd h (by simp [findWords])
  | fuel + 1, index, used, path, r => by
    intro hok hulen hucons hsp
    obtain ⟨hne, hnodup, h16all, hchain⟩ := hsp
    have hspall : IsSimplePath (path ++ [index]) := ⟨hne, hnodup, h16all, hchain⟩
    have hidx16 : index < 16 := h16all index (by simp)
    have hsetlen : (used.set index true).length = 16 := by simp [hulen]
    have hucons2 : ∀ c, c < 16 →
        ((used.set index true).getD c true = true ↔ c ∈ path ++ [index]) := by
      intro c hc
      by_cases hci : c = index
      · subst hci
        rw [getD_set_self used c true true (by omega)]
        simp
      · rw [getD_set_ne used index c true true (fun hh => hci hh.symm)]
        rw [hucons c hc]
        simp [hci]
    have hsub : ∀ move ∈ (getPossibleIndexMoves index).filter (fun move =>
        !((used.set index true).getD ((index : Int) + move).toNat true)),
        IsSimplePath ((path ++ [index]) ++ [((index : Int) + move).toNat]) := by
      intro move hmove
      obtain ⟨hmem, hfilter⟩ := List.mem_filter.mp hmove
      have hfalse : (used.set index true).getD ((index : Int) + move).toNat true = false := by
        simpa using hfilter
      have hnext16 : ((index : Int) + move).toNat < 16 := moves_target_lt hmem
      have hnotin : ((index : Int) + move).toNat ∉ path ++ [index] := by
        intro hin
        have hta := (hucons2 _ hnext16).mpr hin
        rw [hfalse] at hta
        exact absurd hta (by simp)
      refine ⟨by simp, ?_, ?_, ?_⟩
      · have hiff : ((path ++ [index]) ++ [((index : Int) + move).toNat]).Nodup ↔
            (path ++ [index]).Nodup ∧ ((index : Int) + move).toNat ∉ path ++ [index] := by
          simp [List.nodup_append]
          tauto
        exact hiff.mpr ⟨hnodup, hnotin⟩
      · intro c hc
        rcases List.mem_append.mp hc with hc | hc
        · exact h16all c hc
        · simp at hc
          omega
      · rw [List.chain'_append]
        refine ⟨hchain, List.chain'_singleton _, ?_⟩
        intro x hx y hy
        rw [List.getLast?_concat] at hx
        simp at hx hy
        subst hx
        subst hy
        unfold adjacentB
        rw [List.any_eq_true]
        exact ⟨move, hmem, by simp⟩
    simp only [findWords] at hok
    split at hok
    · split at hok
      · injection hok with hok
        subst hok
        simp
      · intro w hw
        obtain ⟨move, hmove, rm, hfm, hwm⟩ := runSeq_ok_mem _ _ _ hok w hw
        exact findWords_sound ws board fuel _ (used.set index true) (path ++ [index]) rm hfm
          hsetlen hucons2 (hsub move hmove) w hwm
    · split at hok
      · exact absurd hok (by simp)
      · next bucket hbucket =>
        have hbucketmem : ∀ x ∈ bucket, x ∈ unsortedValidWords ws board := by
          intro x hx
          unfold validWordsBucket at hbucket
          split at hbucket
          · injection hbucket with hbucket
            subst hbucket
            exact (List.mem_filter.mp hx).1
          · exact absurd hbucket (by simp)
        split at hok
        · split at hok
          · exact absurd hok (by simp)
          · next rs hrs =>
            injection hok with hok
            subst hok
            intro w hw
            rcases List.mem_append.mp hw with hw | hw
            · revert hw
              split
              · next hfound =>
                intro hw
                simp at hw
                subst hw
                rw [Bool.and_eq_true] at hfound
                exact ⟨hbucketmem _ ((contains_true_iff _ _).mp hfound.2),
                  path ++ [index], hspall, rfl⟩
              · intro hw
                simp at hw
            · obtain ⟨move, hmove, rm, hfm, hwm⟩ := runSeq_ok_mem _ _ _ hrs w hw
              exact findWords_sound ws board fuel _ (used.set index true) (path ++ [index]) rm
                hfm hsetlen hucons2 (hsub move hmove) w hwm
        · injection hok with hok
          subst hok
          intro w hw
          revert hw
          split
          · next hfound =>
            intro hw
            simp at hw
            subst hw
            rw [Bool.and_eq_true] at hfound
            exact ⟨hbucketmem _ ((contains_true_iff _ _).mp hfound.2),
              path ++ [index], hspall, rfl⟩
          · intro hw
            simp at hw

end BoggleSolver

namespace BoggleSolver

/-- **C1.** Soundness of the solve: every word in the produced output is an
exact entry of the filtered dictionary and is traceable as a simple path (no
repeated cell) through adjacency-table-adjacent cells of the board, a `'q'`
cell on the path contributing `"qu"` to the spelled word (which is what
`buildCurWord` does). -/
theorem solve_sound (ws : List (List Char)) (board : List Char) (r : List (List Char))
    (h : solveBoard ws board = .ok r) :
    ∀ w ∈ r, w ∈ unsortedValidWords ws board ∧
      ∃ p, IsSimplePath p ∧ buildCurWord board p = w := by
  obtain ⟨-, collected, hrun, hr⟩ := solveWith_ok h
  subst hr
  intro w hw
  rw [mem_sortWords, List.mem_dedup] at hw
  obtain ⟨i, hi, ri, hfi, hwi⟩ := runSeq_ok_mem _ _ _ hrun w hw
  refine findWords_sound ws board 17 i (List.replicate 16 false) [] ri hfi (by simp) ?_ ?_ w hwi
  · intro c hc
    rw [getD_replicate_lt 16 c false true hc]
    simp
  · refine ⟨by simp, by simp, ?_, by simp⟩
    intro c hc
    simp at hc
    subst hc
    exact List.mem_range.mp hi

/-- Witness for soundness: on board `"viaxxx..."` with dictionary `{"via"}`,
the output word `"via"` is a surviving dictionary word traced by a simple
path. -/
theorem solve_sound_witness :
    ['v', 'i', 'a'] ∈ unsortedValidWords [['v', 'i', 'a']] ("viaxxxxxxxxxxxxx".toList) ∧
      ∃ p, IsSimplePath p ∧ buildCurWord ("viaxxxxxxxxxxxxx".toList) p = ['v', 'i', 'a'] :=
  solve_sound [['v', 'i', 'a']] ("viaxxxxxxxxxxxxx".toList) [['v', 'i', 'a']] rfl
    ['v', 'i', 'a'] (by decide)

end BoggleSolver

namespace BoggleSolver

lemma isPrefixOf_true : ∀ l1 l2 : List Char, l1.isPrefixOf l2 = true ↔ ∃ t, l1 ++ t = l2
  | [], l2 => by simp [List.isPrefixOf]
  | a :: as, [] => by simp [List.isPrefixOf]
  | a :: as, b :: bs => by
    simp only [List.isPrefixOf, Bool.and_eq_true, beq_iff_eq]
    rw [isPrefixOf_true as bs]
    constructor
    · rintro ⟨rfl, t, rfl⟩
      exact ⟨t, rfl⟩
    · rintro ⟨t, ht⟩
      injection ht with h1 h2
      exact ⟨h1, t, h2⟩

end BoggleSolver

namespace BoggleSolver

/-- Completeness invariant of `_find_words`: if the call succeeds, the
current path extended by `ext` spells a surviving dictionary word `w`, `ext`
continues the path by adjacency into fresh unvisited cells, then `w` is
among the recorded words.  The prefix pruning never cuts this branch because
`w` itself sits in every bucket the intermediate prefixes select. -/
lemma findWords_complete (ws : List (List Char)) (board : List Char) :
    ∀ (ext : List Nat) (fuel index : Nat) (used : List Bool) (path : List Nat)
      (r : List (List Char)) (w : List Char),
      findWords getPossibleIndexMoves (validWordsBucket ws board) board
        fuel index used path = .ok r →
      w ∈ unsortedValidWords ws board →
      buildCurWord board ((path ++ [index]) ++ ext) = w →
      List.Chain' (fun a b => adjacentB a b = true) (index :: ext) →
      (index :: ext).Nodup →
      (∀ c ∈ ext, (used.set index true).getD c true = false) →
      w ∈ r
  | ext, 0, index, used, path, r, w => fun hok => absurd hok (by simp [findWords])
  | [], fuel + 1, index, used, path, r, w => by
    intro hok hwvalid hcur hchain hnodup hext
    have hw3 : 2 < w.length := by
      unfold unsortedValidWords dictWords at hwvalid
      obtain ⟨hd, -⟩ := List.mem_filter.mp hwvalid
      obtain ⟨-, hlen⟩ := List.mem_filter.mp hd
      simp only [Bool.and_eq_true, decide_eq_true_eq] at hlen
      omega
    rw [List.append_nil] at hcur
    have hpathne : path ≠ [] := by
      intro hp
      subst hp
      have hsl := buildCurWord_singleton_length board index
      rw [show (([] : List Nat) ++ [index]) = [index] from by simp] at hcur
      rw [hcur] at hsl
      omega
    simp only [findWords] at hok
    split at hok
    · next hc =>
      exfalso
      simp only [beq_iff_eq] at hc
      rw [List.length_append] at hc
      simp at hc
      exact hpathne hc
    · split at hok
      · exact absurd hok (by simp)
      · next bucket hbucket =>
        have hwb : w ∈ bucket := by
          unfold validWordsBucket at hbucket
          split at hbucket
          · injection hbucket with hbucket
            subst hbucket
            rw [List.mem_filter]
            refine ⟨hwvalid, ?_⟩
            rw [hcur, Bool.and_eq_true]
            constructor <;> simp
          · exact absurd hbucket (by simp)
        have hfound : (decide (2 < (buildCurWord board (path ++ [index])).length) &&
            bucket.contains (buildCurWord board (path ++ [index]))) = true := by
          rw [Bool.and_eq_true]
          constructor
          · rw [hcur]
            simpa using hw3
          · rw [hcur]
            exact (contains_true_iff _ _).mpr hwb
        split at hok
        · split at hok
          · exact absurd hok (by simp)
          · injection hok with hok
            subst hok
            rw [List.mem_append]
            left
            rw [hcur]
            simp
        · injection hok with hok
          subst hok
          rw [hcur]
          simp
  | e :: ext2, fuel + 1, index, used, path, r, w => by
    intro hok hwvalid hcur hchain hnodup hext
    obtain ⟨hadj, hchain2⟩ := List.chain'_cons.mp hchain
    have hnodup2 : (e :: ext2).Nodup := hnodup.of_cons
    have hem : ∃ m ∈ getPossibleIndexMoves index, e = ((index : Int) + m).toNat := by
      unfold adjacentB at hadj
      rw [List.any_eq_true] at hadj
      obtain ⟨m, hm, hbeq⟩ := hadj
      exact ⟨m, hm, by simpa using hbeq⟩
    obtain ⟨m, hmem, he⟩ := hem
    have hgete : (used.set index true).getD e true = false :=
      hext e (List.mem_cons_self e ext2)
    have hmove : m ∈ (getPossibleIndexMoves index).filter (fun move =>
        !((used.set index true).getD ((index : Int) + move).toNat true)) := by
      rw [List.mem_filter]
      refine ⟨hmem, ?_⟩
      rw [← he, hgete]
      rfl
    have hmovesne : (getPossibleIndexMoves index).filter (fun move =>
        !((used.set index true).getD ((index : Int) + move).toNat true)) ≠ [] :=
      List.ne_nil_of_mem hmove
    have hcur' : buildCurWord board (((path ++ [index]) ++ [e]) ++ ext2) = w := by
      rw [show ((path ++ [index]) ++ [e]) ++ ext2 = (path ++ [index]) ++ (e :: ext2) from by
        simp]
      exact hcur
    have hext2 : ∀ c ∈ ext2, ((used.set index true).set e true).getD c true = false := by
      intro c hc
      have hce : c ≠ e := by
        intro hcc
        subst hcc
        exact (List.nodup_cons.mp hnodup2).1 hc
      rw [getD_set_ne _ e c true true (fun hh => hce hh.symm)]
      exact hext c (List.mem_cons_of_mem e hc)
    simp only [findWords] at hok
    split at hok
    · split at hok
      · next hemp =>
        exfalso
        rw [List.isEmpty_iff] at hemp
        exact hmovesne hemp
      · obtain ⟨rm, hfm, hsubset⟩ := runSeq_ok_of_mem _ _ _ hok m hmove
        rw [← he] at hfm
        exact hsubset w (findWords_complete ws board ext2 fuel e (used.set index true)
          (path ++ [index]) rm w hfm hwvalid hcur' hchain2 hnodup2 hext2)
    · next hlen1 =>
      split at hok
      · exact absurd hok (by simp)
      · next bucket hbucket =>
        have hpre : ∃ t, buildCurWord board (path ++ [index]) ++ t = w := by
          refine ⟨buildCurWord board (e :: ext2), ?_⟩
          rw [← buildCurWord_append]
          exact hcur
        have hlen2 : 2 ≤ (buildCurWord board (path ++ [index])).length := by
          have hne1 : (path ++ [index]).length ≠ 1 := by simpa using hlen1
          have hp1 : (path ++ [index]).length = path.length + 1 := by simp
          have := length_le_buildCurWord board (path ++ [index])
          omega
        obtain ⟨t, ht⟩ := hpre
        have hkey0 : w.getD 0 ' ' = (buildCurWord board (path ++ [index])).getD 0 ' ' := by
          rw [← ht]
          exact getD_append_left _ t 0 ' ' (by omega)
        have hkey1 : w.getD 1 ' ' = (buildCurWord board (path ++ [index])).getD 1 ' ' := by
          rw [← ht]
          exact getD_append_left _ t 1 ' ' (by omega)
        have hwb : w ∈ bucket := by
          unfold validWordsBucket at hbucket
          split at hbucket
          · injection hbucket with hbucket
            subst hbucket
            rw [List.mem_filter]
            refine ⟨hwvalid, ?_⟩
            rw [Bool.and_eq_true, hkey0, hkey1]
            constructor <;> simp
          · exact absurd hbucket (by simp)
        have hiws : (bucket.any (fun word =>
            (buildCurWord board (path ++ [index])).isPrefixOf word)) = true := by
          rw [List.any_eq_true]
          exact ⟨w, hwb, (isPrefixOf_true _ w).mpr ⟨t, ht⟩⟩
        split at hok
        · split at hok
          · exact absurd hok (by simp)
          · next rs hrs =>
            injection hok with hok
            subst hok
            rw [List.mem_append]
            right
            obtain ⟨rm, hfm, hsubset⟩ := runSeq_ok_of_mem _ _ _ hrs m hmove
            rw [← he] at hfm
            exact hsubset w (findWords_complete ws board ext2 fuel e (used.set index true)
              (path ++ [index]) rm w hfm hwvalid hcur' hchain2 hnodup2 hext2)
        · next hcond =>
          exfalso
          rw [Bool.and_eq_true] at hcond
          refine hcond ⟨hiws, ?_⟩
          simpa [List.isEmpty_iff] using hmovesne
  termination_by _ fuel => fuel

end BoggleSolver

namespace BoggleSolver

/-- **C2.** Completeness of the solve: whenever the solver produces an
output, every filtered dictionary word that is spelled by some simple path of
adjacency-table-adjacent cells (with `'q'` cells expanding to `"qu"`) appears
in the output — the prefix pruning never discards a reachable word, because a
reachable word lies in every bucket its own prefixes select. -/
theorem solve_complete (ws : List (List Char)) (board : List Char)
    (r : List (List Char)) (w : List Char) (path : List Nat)
    (h : solveBoard ws board = .ok r)
    (hw : w ∈ unsortedValidWords ws board)
    (hpath : IsSimplePath path)
    (hspell : buildCurWord board path = w) :
    w ∈ r := by
  obtain ⟨-, collected, hrun, hr⟩ := solveWith_ok h
  subst hr
  rw [mem_sortWords, List.mem_dedup]
  obtain ⟨hne, hnodup, h16, hchain⟩ := hpath
  cases path with
  | nil => exact absurd rfl hne
  | cons p0 rest =>
    have hp016 : p0 < 16 := h16 p0 (by simp)
    obtain ⟨r0, hf0, hsubset⟩ := runSeq_ok_of_mem _ _ _ hrun p0 (List.mem_range.mpr hp016)
    refine hsubset w ?_
    refine findWords_complete ws board rest 17 p0 (List.replicate 16 false) [] r0 w hf0 hw
      ?_ hchain hnodup ?_
    · rw [show (([] : List Nat) ++ [p0]) ++ rest = p0 :: rest from by simp]
      exact hspell
    · intro c hc
      have hc16 : c < 16 := h16 c (by simp [hc])
      have hcp0 : c ≠ p0 := by
        intro hcc
        subst hcc
        exact (List.nodup_cons.mp hnodup).1 hc
      rw [getD_set_ne _ p0 c true true (fun hh => hcp0 hh.symm)]
      rw [getD_replicate_lt 16 c false true hc16]

/-- Witness for completeness: on board `"viaxxx..."` with dictionary
`{"via"}`, the surviving word `"via"` is spelled by the simple path
`[0, 1, 2]` and indeed appears in the produced output `["via"]`. -/
theorem solve_complete_witness :
    ['v', 'i', 'a'] ∈ ([['v', 'i', 'a']] : List (List Char)) :=
  solve_complete [['v', 'i', 'a']] ("viaxxxxxxxxxxxxx".toList) [['v', 'i', 'a']]
    ['v', 'i', 'a'] [0, 1, 2] rfl (by decide) (by decide) rfl

end BoggleSolver

namespace BoggleSolver

/-- `_find_words` only ever consults the adjacency table at indices in
`[0,15]`, so two tables agreeing with the canonical one there solve
identically. -/
lemma findWords_table_congr (vw : Char → Char → Option (List (List Char)))
    (board : List Char) :
    ∀ (fuel : Nat) (t1 t2 : Nat → List Int) (index : Nat) (used : List Bool) (path : List Nat),
      (∀ i, i < 16 → t1 i = getPossibleIndexMoves i) →
      (∀ i, i < 16 → t2 i = getPossibleIndexMoves i) →
      index < 16 →
      findWords t1 vw board fuel index used path = findWords t2 vw board fuel index used path
  | 0, t1, t2, index, used, path => fun _ _ _ => rfl
  | fuel + 1, t1, t2, index, used, path => by
    intro h1 h2 hidx
    have ht : t1 index = t2 index := by rw [h1 index hidx, h2 index hidx]
    have hrsL : runSeq (fun move => findWords t1 vw board fuel ((index : Int) + move).toNat
          (used.set index true) (path ++ [index]))
        ((t2 index).filter (fun move =>
          !((used.set index true).getD ((index : Int) + move).toNat true))) =
      runSeq (fun move => findWords t2 vw board fuel ((index : Int) + move).toNat
          (used.set index true) (path ++ [index]))
        ((t2 index).filter (fun move =>
          !((used.set index true).getD ((index : Int) + move).toNat true))) := by
      apply runSeq_congr
      intro m hm
      obtain ⟨hmem, -⟩ := List.mem_filter.mp hm
      rw [h2 index hidx] at hmem
      exact findWords_table_congr vw board fuel t1 t2 _ _ _ h1 h2 (moves_target_lt hmem)
    simp only [findWords]
    rw [ht]
    rw [hrsL]

lemma foldl_update_lookup : ∀ (l : List Nat) (cache : Nat → Option (List Int)) (k : Nat),
    (l.foldl (fun c i => fun j => if j == i then some (getPossibleIndexMoves i) else c j)
        cache) k =
      if k ∈ l then some (getPossibleIndexMoves k) else cache k
  | [], cache, k => by simp
  | x :: xs, cache, k => by
    rw [List.foldl_cons]
    rw [foldl_update_lookup xs _ k]
    by_cases hk : k ∈ xs
    · rw [if_pos hk, if_pos (List.mem_cons.mpr (Or.inr hk))]
    · rw [if_neg hk]
      by_cases hkx : k = x
      · subst hkx
        rw [if_pos (List.mem_cons.mpr (Or.inl rfl))]
        simp
      · rw [if_neg (fun hh => (List.mem_cons.mp hh).elim hkx hk)]
        rw [if_neg (by simpa using hkx)]

/-- After `_build_possible_index_moves` runs, every entry for an index in
`[0,15]` holds the canonical move set, whatever the dict held before. -/
lemma buildPossibleIndexMoves_lt (cache : Nat → Option (List Int)) (i : Nat)
    (h : i < 16) : buildPossibleIndexMoves cache i = some (getPossibleIndexMoves i) := by
  unfold buildPossibleIndexMoves
  rw [foldl_update_lookup]
  rw [if_pos (List.mem_range.mpr h)]

end BoggleSolver

namespace BoggleSolver

/-- **C8.** Determinism / idempotence: a run of the engine produces the same
output whatever the class-level `possible_index_moves` cache held beforehand
— in particular a second run on identical `(dictionary, board)` inputs (whose
cache was filled by the first run) yields an identical output, and since the
embedding is a pure function the result cannot depend on iteration order. -/
theorem solve_deterministic (cache : Nat → Option (List Int)) (ws : List (List Char))
    (board : List Char) :
    solveBoardFrom cache ws board = solveBoard ws board ∧
    solveBoardFrom (buildPossibleIndexMoves cache) ws board =
      solveBoardFrom cache ws board := by
  have hmain : ∀ c : Nat → Option (List Int), solveBoardFrom c ws board = solveBoard ws board := by
    intro c
    unfold solveBoardFrom solveBoard solveWith
    have hrs : runSeq (fun i => findWords (tableOfCache (buildPossibleIndexMoves c))
        (validWordsBucket ws board) board 17 i (List.replicate 16 false) [])
          (List.range 16) =
      runSeq (fun i => findWords getPossibleIndexMoves
        (validWordsBucket ws board) board 17 i (List.replicate 16 false) [])
          (List.range 16) := by
      apply runSeq_congr
      intro i hi
      apply findWords_table_congr
      · intro k hk
        unfold tableOfCache
        rw [buildPossibleIndexMoves_lt c k hk]
        rfl
      · intro k hk
        rfl
      · exact List.mem_range.mp hi
    rw [hrs]
  exact ⟨hmain cache, by rw [hmain (buildPossibleIndexMoves cache), hmain cache]⟩

end BoggleSolver
